import Mathlib

/-!
Verification of the pyClarion `default/common.py` activation-propagation and
action-selection primitives.

Modelling conventions:
* Python floats are modelled exactly: `ℚ` where the code only adds,
  multiplies and divides (TopDown, Rule, MaxJunction, MatchStatistics), and
  `ℝ`/`ℂ` where the code uses `**` with non-integer exponents or `exp`
  (BottomUp, BLA, BoltzmannSelector).  Python's float `**` returns a complex
  number for a negative base and a fractional exponent, so those results live
  in `ℂ`.
* Python dicts are association lists (`List (κ × ν)`) with first-match lookup;
  dict assignment is `dinsert` (update-or-append), which preserves the
  key-uniqueness invariant Python dicts have.
* A raised exception is an `Except PyErr` error value: `KeyError` from a
  failed `[]` lookup, `ZeroDivisionError` from `x / 0.0` or `0.0 ** y` with
  `y < 0`.
-/

deriving instance DecidableEq for Except

/-- Runtime errors the translated code can raise. -/
inductive PyErr : Type
  | keyError : PyErr
  | zeroDiv : PyErr
deriving DecidableEq, Repr

/-- Lookup in an association list, first match wins; models `d[k]`
returning `some` value, or `none` for a `KeyError`. -/
def lookupA {α β : Type} [DecidableEq α] : List (α × β) → α → Option β
  | [], _ => none
  | (k, v) :: rest, a => if k = a then some v else lookupA rest a

/-- Dict assignment `d[k] = v`: replace the first binding of `k`, or append a
new binding when `k` is absent. -/
def dinsert {α β : Type} [DecidableEq α] : List (α × β) → α → β → List (α × β)
  | [], a, b => [(a, b)]
  | (k, v) :: rest, a, b =>
      if k = a then (a, b) :: rest else (k, v) :: dinsert rest a b

/-- Keys of an association list. -/
def keysA {α β : Type} (l : List (α × β)) : List α := l.map Prod.fst

theorem lookupA_dinsert_self {α β : Type} [DecidableEq α]
    (l : List (α × β)) (a : α) (b : β) :
    lookupA (dinsert l a b) a = some b := by
  induction l with
  | nil => simp [dinsert, lookupA]
  | cons p rest ih =>
      obtain ⟨k, v⟩ := p
      by_cases hk : k = a
      · simp [dinsert, hk, lookupA]
      · simp [dinsert, hk, lookupA, ih]

theorem lookupA_dinsert_ne {α β : Type} [DecidableEq α]
    (l : List (α × β)) (a a' : α) (b : β) (h : a' ≠ a) :
    lookupA (dinsert l a b) a' = lookupA l a' := by
  have h2 : a ≠ a' := Ne.symm h
  induction l with
  | nil => simp [dinsert, lookupA, h2]
  | cons p rest ih =>
      obtain ⟨k, v⟩ := p
      by_cases hk : k = a
      · subst hk
        simp [dinsert, lookupA, h2]
      · simp only [dinsert, if_neg hk, lookupA]
        by_cases hk' : k = a'
        · simp [hk']
        · simp [hk', ih]

theorem dinsert_of_not_mem {α β : Type} [DecidableEq α]
    (l : List (α × β)) (a : α) (b : β) (h : a ∉ keysA l) :
    dinsert l a b = l ++ [(a, b)] := by
  induction l with
  | nil => simp [dinsert]
  | cons p rest ih =>
      obtain ⟨k, v⟩ := p
      simp only [keysA, List.map_cons, List.mem_cons] at h
      push_neg at h
      have hk : k ≠ a := Ne.symm h.1
      simp only [dinsert, if_neg hk, List.cons_append]
      rw [ih (by simpa [keysA] using h.2)]

theorem lookupA_append_right {α β : Type} [DecidableEq α]
    (l l' : List (α × β)) (a : α) (h : a ∉ keysA l) :
    lookupA (l ++ l') a = lookupA l' a := by
  induction l with
  | nil => simp
  | cons p rest ih =>
      obtain ⟨k, v⟩ := p
      simp only [keysA, List.map_cons, List.mem_cons] at h
      push_neg at h
      have hk : k ≠ a := Ne.symm h.1
      simp only [List.cons_append, lookupA, if_neg hk]
      exact ih (by simpa [keysA] using h.2)

theorem lookupA_append_left {α β : Type} [DecidableEq α]
    (l l' : List (α × β)) (a : α) (b : β) (h : lookupA l a = some b) :
    lookupA (l ++ l') a = some b := by
  induction l with
  | nil => simp [lookupA] at h
  | cons p rest ih =>
      obtain ⟨k, v⟩ := p
      simp only [lookupA, List.cons_append] at h ⊢
      by_cases hk : k = a
      · simpa [hk] using h
      · simp only [if_neg hk] at h ⊢
        exact ih h

theorem lookupA_isSome_iff_mem_keys {α β : Type} [DecidableEq α]
    (l : List (α × β)) (a : α) :
    (lookupA l a).isSome ↔ a ∈ keysA l := by
  induction l with
  | nil => simp [lookupA, keysA]
  | cons p rest ih =>
      obtain ⟨k, v⟩ := p
      by_cases hk : k = a
      · simp [lookupA, hk, keysA]
      · simp [lookupA, hk, keysA, Ne.symm hk] at ih ⊢
        exact ih

/-- Modelled from the spec: a microfeature is an immutable
dimension-value pair (`pyClarion.base.nodes` is not part of the sources);
dimensions and values are identifiers, modelled as naturals. -/
structure Microfeature : Type where
  dim : Nat
  val : Nat
deriving DecidableEq, Repr

/-- Modelled from the spec: a chunk owns a set of microfeatures and a mapping
from dimension to weight (`pyClarion.base.nodes` is not part of the sources). -/
structure Chunk : Type where
  microfeatures : List Microfeature
  dim2weight : List (Nat × ℚ)
deriving DecidableEq, Repr

/-- Modelled from the spec: a node is either a chunk or a microfeature, used
only as an activation-map key. -/
inductive Node : Type
  | chunk : Chunk → Node
  | mf : Microfeature → Node
deriving DecidableEq, Repr

/-- Activation map: a Python dict from nodes to float activations. -/
def AMap : Type := List (Node × ℚ)

/-- The §3 data-model invariant: every dimension appearing in a chunk's
microfeatures has an entry in the chunk's weight mapping, and the
microfeatures form a set (no duplicates). -/
def Chunk.WF (c : Chunk) : Prop :=
  (∀ f ∈ c.microfeatures, (lookupA c.dim2weight f.dim).isSome) ∧
    c.microfeatures.Nodup

instance (c : Chunk) : Decidable c.WF := by
  unfold Chunk.WF
  infer_instance

/-- The weight a chunk assigns to a dimension (defined when `Chunk.WF`
holds and the dimension occurs among the microfeatures). -/
def Chunk.weight (c : Chunk) (d : Nat) : ℚ :=
  (lookupA c.dim2weight d).getD 0

/-! ### TopDown (`common.py` lines 15-71) -/

/-- Source `TopDown.count_values`: count the number of microfeatures in each
dimension by folding the dict-increment `counts[f.dim()] += 1` /
`counts[f.dim()] = 1` over the microfeature set. -/
def count_values (microfeatures : List Microfeature) : List (Nat × Nat) :=
  microfeatures.foldl
    (fun counts f =>
      match lookupA counts f.dim with
      | some n => dinsert counts f.dim (n + 1)
      | none => dinsert counts f.dim 1)
    []

/-- The `TopDown` channel state: the bound chunk and the precomputed
per-dimension value counts. -/
structure TopDown : Type where
  chunk : Chunk
  val_counts : List (Nat × Nat)

/-- Source `TopDown.__init__`: bind the chunk and precompute `count_values`. -/
def TopDown.new (c : Chunk) : TopDown :=
  ⟨c, count_values c.microfeatures⟩

/-- Body of the `for f in self.chunk.microfeatures` loop of
`TopDown.__call__`: each step looks up the dimension weight and the value
count (a failed lookup raises `KeyError`) and assigns
`activations[f] = strength * w_dim / n_val`. -/
def TopDown.loop (td : TopDown) (strength : ℚ) :
    List Microfeature → List (Microfeature × ℚ) →
      Except PyErr (List (Microfeature × ℚ))
  | [], acc => .ok acc
  | f :: rest, acc =>
      match lookupA td.chunk.dim2weight f.dim, lookupA td.val_counts f.dim with
      | some w_dim, some n_val =>
          if n_val = 0 then .error .zeroDiv
          else TopDown.loop td strength rest
            (dinsert acc f (strength * w_dim / (n_val : ℚ)))
      | _, _ => .error .keyError

/-- Source `TopDown.__call__`: an absent bound chunk is caught (`KeyError` →
empty dict); otherwise distribute the chunk strength over the
microfeatures. -/
def TopDown.call (td : TopDown) (input_map : AMap) :
    Except PyErr (List (Microfeature × ℚ)) :=
  match lookupA input_map (Node.chunk td.chunk) with
  | none => .ok []
  | some strength => TopDown.loop td strength td.chunk.microfeatures []

/-- Number of a chunk's microfeatures having dimension `d` (the spec's
`count(d)`). -/
def countOf (c : Chunk) (d : Nat) : Nat :=
  (c.microfeatures.filter (fun f => f.dim = d)).length

/-- Inner characterization of `count_values` relative to an accumulator. -/
theorem count_values_loop_lookup (mfs : List Microfeature)
    (acc : List (Nat × Nat)) (d : Nat) :
    lookupA
        (mfs.foldl
          (fun counts f =>
            match lookupA counts f.dim with
            | some n => dinsert counts f.dim (n + 1)
            | none => dinsert counts f.dim 1)
          acc) d =
      match lookupA acc d, (mfs.filter (fun f => f.dim = d)).length with
      | some n, k => some (n + k)
      | none, 0 => none
      | none, k + 1 => some (k + 1) := by
  induction mfs generalizing acc with
  | nil =>
      simp only [List.foldl_nil, List.filter_nil, List.length_nil]
      match h : lookupA acc d with
      | some n => simp
      | none => simp
  | cons f rest ih =>
      simp only [List.foldl_cons]
      by_cases hd : f.dim = d
      · subst hd
        match h : lookupA acc f.dim with
        | some n =>
            rw [ih]
            rw [lookupA_dinsert_self]
            simp only [List.filter_cons, decide_True, if_true, List.length_cons]
            match hk : (rest.filter (fun g => g.dim = f.dim)).length with
            | 0 => simp [hk]
            | k + 1 => simp [hk]; ring
        | none =>
            rw [ih]
            rw [lookupA_dinsert_self]
            simp only [List.filter_cons, decide_True, if_true, List.length_cons]
            match hk : (rest.filter (fun g => g.dim = f.dim)).length with
            | 0 => simp [hk]
            | k + 1 => simp [hk]; ring
      · have hne : d ≠ f.dim := fun h => hd h.symm
        have hfilter :
            (f :: rest).filter (fun g => g.dim = d) =
              rest.filter (fun g => g.dim = d) := by
          simp [List.filter_cons, hd]
        rw [hfilter]
        match h : lookupA acc f.dim with
        | some n =>
            rw [ih, lookupA_dinsert_ne _ _ _ _ hne]
        | none =>
            rw [ih, lookupA_dinsert_ne _ _ _ _ hne]

/-- Lemma: `count_values` computes exactly the per-dimension microfeature count. -/
theorem count_values_lookup (mfs : List Microfeature) (d : Nat) :
    lookupA (count_values mfs) d =
      if 0 < (mfs.filter (fun f => f.dim = d)).length
      then some ((mfs.filter (fun f => f.dim = d)).length) else none := by
  unfold count_values
  rw [count_values_loop_lookup mfs [] d]
  simp only [lookupA]
  match hk : (mfs.filter (fun f => f.dim = d)).length with
  | 0 => simp [hk]
  | k + 1 => simp [hk]

theorem countOf_pos_of_mem {c : Chunk} {f : Microfeature}
    (hf : f ∈ c.microfeatures) : 0 < countOf c f.dim := by
  unfold countOf
  have : f ∈ c.microfeatures.filter (fun g => g.dim = f.dim) :=
    List.mem_filter.2 ⟨hf, by simp⟩
  exact List.length_pos.2 (fun hnil => by simp [hnil] at this)

/-- The `TopDown.__call__` loop, run on fresh keys over well-covered
microfeatures, appends exactly one binding per microfeature. -/
theorem TopDown.new_chunk (c : Chunk) : (TopDown.new c).chunk = c := rfl

theorem TopDown.new_val_counts (c : Chunk) :
    (TopDown.new c).val_counts = count_values c.microfeatures := rfl

/-- The `TopDown.__call__` loop, run on fresh keys over well-covered
microfeatures, appends exactly one binding per microfeature. -/
theorem TopDown.loop_eq (c : Chunk) (s : ℚ) (mfs : List Microfeature)
    (acc : List (Microfeature × ℚ))
    (hw : ∀ f ∈ mfs, (lookupA c.dim2weight f.dim).isSome)
    (hc : ∀ f ∈ mfs, 0 < countOf c f.dim)
    (hacc : ∀ f ∈ mfs, f ∉ keysA acc)
    (hnd : mfs.Nodup) :
    TopDown.loop (TopDown.new c) s mfs acc =
      .ok (acc ++ mfs.map (fun f =>
        (f, s * c.weight f.dim / (countOf c f.dim : ℚ)))) := by
  induction mfs generalizing acc with
  | nil => simp [TopDown.loop]
  | cons f rest ih =>
      have hwf : (lookupA c.dim2weight f.dim).isSome := hw f (by simp)
      obtain ⟨w, hwl⟩ := Option.isSome_iff_exists.1 hwf
      have hcf : 0 < countOf c f.dim := hc f (by simp)
      have hcount : lookupA (TopDown.new c).val_counts f.dim
          = some (countOf c f.dim) := by
        rw [TopDown.new_val_counts, count_values_lookup]
        simp only [countOf] at hcf ⊢
        rw [if_pos hcf]
      have hweight : c.weight f.dim = w := by
        simp [Chunk.weight, hwl]
      have hne : countOf c f.dim ≠ 0 := Nat.pos_iff_ne_zero.1 hcf
      have hfresh : f ∉ keysA acc := hacc f (by simp)
      simp only [TopDown.loop, TopDown.new_chunk, hwl, hcount]
      rw [if_neg hne]
      rw [dinsert_of_not_mem _ _ _ hfresh]
      rw [ih _ (fun g hg => hw g (by simp [hg]))
          (fun g hg => hc g (by simp [hg]))
          (fun g hg => by
            simp only [keysA, List.map_append, List.mem_append]
            push_neg
            refine ⟨fun hk => hacc g (by simp [hg]) hk, ?_⟩
            have hgf : g ≠ f := by
              rintro rfl
              exact (List.nodup_cons.1 hnd).1 hg
            simp [hgf])
          (List.nodup_cons.1 hnd).2]
      simp [hweight, List.append_assoc]

/-- C1: on an input containing the bound chunk with strength `s`, `TopDown`
returns the map whose keys are exactly the chunk's microfeatures, each
microfeature `f` bound to `s * weight(f.dim) / count(f.dim)`; on an input not
containing the chunk, it returns the empty map. -/
theorem topDown_correct (c : Chunk) (input_map : AMap) (hwf : c.WF) :
    (∀ s : ℚ, lookupA input_map (Node.chunk c) = some s →
      TopDown.call (TopDown.new c) input_map =
        .ok (c.microfeatures.map (fun f =>
          (f, s * c.weight f.dim / (countOf c f.dim : ℚ)))) ∧
      keysA (c.microfeatures.map (fun f =>
          (f, s * c.weight f.dim / (countOf c f.dim : ℚ)))) =
        c.microfeatures) ∧
    (lookupA input_map (Node.chunk c) = none →
      TopDown.call (TopDown.new c) input_map = .ok []) := by
  constructor
  · intro s hs
    constructor
    · simp only [TopDown.call, TopDown.new_chunk, hs]
      rw [TopDown.loop_eq c s c.microfeatures []
          (fun f hf => hwf.1 f hf)
          (fun f hf => countOf_pos_of_mem hf)
          (fun f _ => by simp [keysA])
          hwf.2]
      simp
    · have hcomp : (Prod.fst ∘ fun f : Microfeature =>
          (f, s * c.weight f.dim / (countOf c f.dim : ℚ))) = id := rfl
      simp only [keysA, List.map_map, hcomp, List.map_id]
  · intro hnone
    simp [TopDown.call, TopDown.new_chunk, hnone]

/-- Witness for C1 at the spec's concrete scenario: microfeatures
(Color, Black), (Color, White), (Shape, Square) with equal unit weights and
chunk strength 1 give activations 1/2, 1/2, 1. -/
theorem topDown_correct_witness :
    TopDown.call
        (TopDown.new ⟨[⟨0, 0⟩, ⟨0, 1⟩, ⟨1, 2⟩], [(0, 1), (1, 1)]⟩)
        [(Node.chunk ⟨[⟨0, 0⟩, ⟨0, 1⟩, ⟨1, 2⟩], [(0, 1), (1, 1)]⟩, 1)] =
      .ok [(⟨0, 0⟩, 1/2), (⟨0, 1⟩, 1/2), (⟨1, 2⟩, 1)] := by
  have h := ((topDown_correct ⟨[⟨0, 0⟩, ⟨0, 1⟩, ⟨1, 2⟩], [(0, 1), (1, 1)]⟩
      [(Node.chunk ⟨[⟨0, 0⟩, ⟨0, 1⟩, ⟨1, 2⟩], [(0, 1), (1, 1)]⟩, 1)]
      (by decide)).1 1 (by decide)).1
  rw [h]
  norm_num [Chunk.weight, countOf, lookupA, List.filter]

/-- C7 counterexample: on a chunk with zero microfeatures, calling the
channel with the chunk present in the input returns the empty map normally
instead of raising an error. -/
theorem topDown_empty_chunk_counterexample :
    TopDown.call (TopDown.new ⟨[], []⟩) [(Node.chunk ⟨[], []⟩, 1)] =
      .ok [] := by decide

/-- C7 amended: constructing `TopDown` on a chunk with zero microfeatures
succeeds, and calling it on any input (containing the bound chunk or not)
returns the empty map normally; no error is raised. -/
theorem topDown_empty_chunk_correct (d2w : List (Nat × ℚ)) (input_map : AMap) :
    TopDown.call (TopDown.new ⟨[], d2w⟩) input_map = .ok [] := by
  cases h : lookupA input_map (Node.chunk ⟨[], d2w⟩) with
  | none => simp [TopDown.call, TopDown.new_chunk, h]
  | some s => simp [TopDown.call, TopDown.new_chunk, h, TopDown.loop]

/-! ### Rule (`common.py` lines 127-176) -/

/-- A Clarion associative rule: a mapping from condition chunks to weights
and one conclusion chunk. -/
structure Rule : Type where
  chunk2weight : List (Chunk × ℚ)
  conclusion_chunk : Chunk

/-- Source `Rule.__call__`: a weighted sum of condition-chunk strengths, skipping
(`KeyError` → `continue`) condition chunks absent from the input, returned
as a single-entry map on the conclusion chunk. -/
def Rule.call (r : Rule) (input_map : AMap) : List (Node × ℚ) :=
  [(Node.chunk r.conclusion_chunk,
    r.chunk2weight.foldl
      (fun strength p =>
        match lookupA input_map (Node.chunk p.1) with
        | some v => strength + v * p.2
        | none => strength)
      0)]

theorem rule_foldl_eq (input_map : AMap) (l : List (Chunk × ℚ)) (z : ℚ) :
    l.foldl
        (fun strength p =>
          match lookupA input_map (Node.chunk p.1) with
          | some v => strength + v * p.2
          | none => strength)
        z =
      z + (l.map (fun p =>
        p.2 * (lookupA input_map (Node.chunk p.1)).getD 0)).sum := by
  induction l generalizing z with
  | nil => simp
  | cons p rest ih =>
      simp only [List.foldl_cons, List.map_cons, List.sum_cons]
      cases h : lookupA input_map (Node.chunk p.1) with
      | none => simp [h, ih]
      | some v =>
          simp only [h, ih, Option.getD_some]
          ring

/-- Condition chunk for the C4 concrete scenario. -/
def c4cond1 : Chunk := ⟨[⟨0, 0⟩], []⟩

/-- Second condition chunk for the C4 concrete scenario. -/
def c4cond2 : Chunk := ⟨[⟨0, 1⟩], []⟩

/-- Conclusion chunk for the C4 concrete scenario. -/
def c4concl : Chunk := ⟨[⟨0, 2⟩], []⟩

/-- The C4 concrete rule: two condition chunks, each weighted 1/2. -/
def c4rule : Rule := ⟨[(c4cond1, 1/2), (c4cond2, 1/2)], c4concl⟩

/-- C4: a rule returns the single-entry map binding its conclusion chunk to
the weighted sum of the condition-chunk strengths, absent condition chunks
contributing 0; with two condition chunks weighted 1/2 each, the four
scenario inputs give 0, 1/2, 3/4 and 1. -/
theorem rule_correct :
    (∀ (r : Rule) (input_map : AMap),
      Rule.call r input_map =
        [(Node.chunk r.conclusion_chunk,
          (r.chunk2weight.map (fun p =>
            p.2 * (lookupA input_map (Node.chunk p.1)).getD 0)).sum)]) ∧
    Rule.call c4rule [(Node.chunk c4cond1, 0), (Node.chunk c4cond2, 0)] =
      [(Node.chunk c4concl, 0)] ∧
    Rule.call c4rule [(Node.chunk c4cond1, 0), (Node.chunk c4cond2, 1)] =
      [(Node.chunk c4concl, 1/2)] ∧
    Rule.call c4rule [(Node.chunk c4cond1, 1/2), (Node.chunk c4cond2, 1)] =
      [(Node.chunk c4concl, 3/4)] ∧
    Rule.call c4rule [(Node.chunk c4cond1, 1), (Node.chunk c4cond2, 1)] =
      [(Node.chunk c4concl, 1)] := by
  refine ⟨fun r input_map => ?_, ?_, ?_, ?_, ?_⟩
  · unfold Rule.call
    rw [rule_foldl_eq]
    simp
  all_goals
    simp [Rule.call, c4rule, c4cond1, c4cond2, c4concl, lookupA]
    try norm_num

/-! ### MatchStatistics (`common.py` lines 316-354) -/

/-- Positive and negative match counters. -/
structure MatchStatistics : Type where
  positive_matches : ℚ
  negative_matches : ℚ
deriving DecidableEq, Repr

/-- Source `MatchStatistics.update`: increment the counter selected by
`positive_match` by exactly 1. -/
def MatchStatistics.update (m : MatchStatistics) (positive_match : Bool) :
    MatchStatistics :=
  if positive_match then
    { m with positive_matches := m.positive_matches + 1 }
  else
    { m with negative_matches := m.negative_matches + 1 }

/-- Source `MatchStatistics.discount`: multiply both counters by the multiplier. -/
def MatchStatistics.discount (m : MatchStatistics) (multiplier : ℚ) :
    MatchStatistics :=
  ⟨m.positive_matches * multiplier, m.negative_matches * multiplier⟩

/-- C9: each `discount` call multiplies both counters by its multiplier,
discounts compose multiplicatively, and in particular discounting by 1/2
twice equals discounting by 1/4 once, from any starting counters. -/
theorem matchStatistics_discount_correct :
    (∀ (m : MatchStatistics) (a : ℚ),
      (m.discount a).positive_matches = m.positive_matches * a ∧
      (m.discount a).negative_matches = m.negative_matches * a) ∧
    (∀ (m : MatchStatistics) (a b : ℚ),
      (m.discount a).discount b = m.discount (a * b)) ∧
    (∀ m : MatchStatistics,
      (m.discount (1/2)).discount (1/2) = m.discount (1/4)) := by
  refine ⟨fun m a => ⟨rfl, rfl⟩, fun m a b => ?_, fun m => ?_⟩
  · simp [MatchStatistics.discount, mul_assoc]
  · simp [MatchStatistics.discount, mul_assoc]
    try norm_num

/-! ### MaxJunction (`common.py` lines 178-207) -/

/-- Modelled from the spec: `nodes.get_nodes` (defined in
`pyClarion.base.nodes`, which is not among the sources) returns the set of
nodes appearing in any of the given activation maps — the union of their key
sets. -/
def get_nodes (input_maps : List AMap) : List Node :=
  (input_maps.map keysA).flatten.dedup

/-- Max of two optional activations; `omax none b = b` mirrors the
first-assignment branch of the `except KeyError` handler. -/
def omax : Option ℚ → Option ℚ → Option ℚ
  | none, b => b
  | some a, none => some a
  | some a, some b => some (max a b)

/-- The inner `for input_map in input_maps` loop of `MaxJunction.__call__`
for one node: keep the running maximum of the activations of the maps that
contain the node, maps lacking it leaving the accumulator unchanged. -/
def maxOver (input_maps : List AMap) (node : Node) : Option ℚ :=
  input_maps.foldl
    (fun acc m =>
      match acc, lookupA m node with
      | some a, some v => if a < v then some v else some a
      | some a, none => some a
      | none, some v => some v
      | none, none => none)
    none

/-- Source `MaxJunction.__call__`: for each node of the union of the key sets, the
maximum activation over the maps containing it; nodes no map contains are
never assigned. -/
def MaxJunction.call (input_maps : List AMap) : AMap :=
  (get_nodes input_maps).filterMap
    (fun node => (maxOver input_maps node).map (fun v => (node, v)))

/-- Fold of `omax` over the values present for a node. -/
def listMax (l : List ℚ) : Option ℚ :=
  l.foldl (fun acc v => omax acc (some v)) none

theorem maxOver_step (acc : Option ℚ) (m : AMap) (node : Node) :
    (match acc, lookupA m node with
      | some a, some v => if a < v then some v else some a
      | some a, none => some a
      | none, some v => some v
      | none, none => (none : Option ℚ)) =
      omax acc (lookupA m node) := by
  cases acc with
  | none => cases lookupA m node <;> simp [omax]
  | some a =>
      cases h : lookupA m node with
      | none => simp [omax]
      | some v =>
          simp only [omax]
          rcases le_or_lt v a with hle | hlt
          · rw [if_neg (not_lt.2 hle), max_eq_left hle]
          · rw [if_pos hlt, max_eq_right hlt.le]

theorem omax_none_right (acc : Option ℚ) : omax acc none = acc := by
  cases acc <;> simp [omax]

theorem maxOver_foldl_eq (node : Node) (input_maps : List AMap)
    (acc : Option ℚ) :
    input_maps.foldl (fun acc m => omax acc (lookupA m node)) acc =
      (input_maps.filterMap (fun m => lookupA m node)).foldl
        (fun acc v => omax acc (some v)) acc := by
  induction input_maps generalizing acc with
  | nil => simp
  | cons m rest ih =>
      simp only [List.foldl_cons, List.filterMap_cons]
      cases h : lookupA m node with
      | none =>
          rw [omax_none_right]
          exact ih acc
      | some v => exact ih (omax acc (some v))

theorem maxOver_eq_listMax (input_maps : List AMap) (node : Node) :
    maxOver input_maps node =
      listMax (input_maps.filterMap (fun m => lookupA m node)) := by
  unfold maxOver listMax
  simp only [maxOver_step]
  exact maxOver_foldl_eq node input_maps none

theorem foldl_max_spec (l : List ℚ) (a : ℚ) :
    (l.foldl max a = a ∨ l.foldl max a ∈ l) ∧ a ≤ l.foldl max a ∧
      ∀ w ∈ l, w ≤ l.foldl max a := by
  induction l generalizing a with
  | nil => simp
  | cons v rest ih =>
      simp only [List.foldl_cons]
      obtain ⟨hmem, hle, hub⟩ := ih (max a v)
      refine ⟨?_, le_trans (le_max_left a v) hle, ?_⟩
      · rcases hmem with h | h
        · rcases max_choice a v with hc | hc
          · exact Or.inl (h.trans hc)
          · exact Or.inr (List.mem_cons.2 (Or.inl (h.trans hc)))
        · exact Or.inr (List.mem_cons.2 (Or.inr h))
      · intro w hw
        rcases List.mem_cons.1 hw with rfl | hw
        · exact le_trans (le_max_right a w) hle
        · exact hub w hw

theorem listMax_none_iff (l : List ℚ) : listMax l = none ↔ l = [] := by
  cases l with
  | nil => simp [listMax]
  | cons v rest =>
      simp only [listMax, List.foldl_cons]
      constructor
      · intro h
        exfalso
        have : ∀ (acc : ℚ) (t : List ℚ),
            t.foldl (fun acc v => omax acc (some v)) (some acc) ≠ none := by
          intro acc t
          induction t generalizing acc with
          | nil => simp
          | cons x xs ih2 => simpa [omax] using ih2 (max acc x)
        exact this v rest (by simpa [omax] using h)
      · intro h
        cases h

theorem listMax_foldl_some (l : List ℚ) (a : ℚ) :
    l.foldl (fun acc v => omax acc (some v)) (some a) = some (l.foldl max a) := by
  induction l generalizing a with
  | nil => simp
  | cons v rest ih => simpa [omax] using ih (max a v)

theorem listMax_some_spec (l : List ℚ) (v : ℚ) (h : listMax l = some v) :
    v ∈ l ∧ ∀ w ∈ l, w ≤ v := by
  cases l with
  | nil => simp [listMax] at h
  | cons x rest =>
      simp only [listMax, List.foldl_cons] at h
      rw [show omax none (some x) = some x from rfl] at h
      rw [listMax_foldl_some] at h
      have hv := Option.some.inj h
      obtain ⟨hmem, hle, hub⟩ := foldl_max_spec rest x
      subst hv
      refine ⟨?_, ?_⟩
      · rcases hmem with h | h
        · simp [h]
        · simp [h]
      · intro w hw
        rcases List.mem_cons.1 hw with rfl | hw
        · exact hle
        · exact hub w hw

theorem mem_keysA_filterMap {α β : Type} [DecidableEq α]
    (u : List α) (g : α → Option β) (n : α)
    (h : n ∈ keysA (u.filterMap (fun x => (g x).map (fun v => (x, v))))) :
    n ∈ u := by
  simp only [keysA, List.mem_map, List.mem_filterMap] at h
  obtain ⟨⟨x, v⟩, ⟨y, hy, hxy⟩, hfst⟩ := h
  cases hg : g y with
  | none => rw [hg] at hxy; cases hxy
  | some w =>
      rw [hg] at hxy
      obtain ⟨h1, h2⟩ := Option.some.injEq _ _ ▸ hxy
      cases hxy
      cases hfst
      exact hy

theorem lookupA_filterMap {α β : Type} [DecidableEq α]
    (u : List α) (g : α → Option β) (hu : u.Nodup) (n : α) :
    lookupA (u.filterMap (fun x => (g x).map (fun v => (x, v)))) n =
      if n ∈ u then g n else none := by
  induction u with
  | nil => simp [lookupA]
  | cons x rest ih =>
      have hx : x ∉ rest := (List.nodup_cons.1 hu).1
      have hrest := ih (List.nodup_cons.1 hu).2
      by_cases hn : n = x
      · subst hn
        cases hg : g n with
        | none =>
            simp only [List.filterMap_cons, hg, Option.map_none']
            rw [hrest]
            simp [if_neg hx, hg]
        | some v =>
            simp [List.filterMap_cons, hg, lookupA]
      · cases hg : g x with
        | none =>
            simp only [List.filterMap_cons, hg, Option.map_none']
            rw [hrest]
            simp [List.mem_cons, hn]
        | some v =>
            simp only [List.filterMap_cons, hg, Option.map_some']
            have hxn : ¬ x = n := fun h2 => hn (Eq.symm h2)
            simp only [lookupA, if_neg hxn]
            rw [hrest]
            simp [List.mem_cons, hn]

theorem get_nodes_mem (input_maps : List AMap) (n : Node) :
    n ∈ get_nodes input_maps ↔ ∃ m ∈ input_maps, n ∈ keysA m := by
  simp only [get_nodes, List.mem_dedup, List.mem_flatten, List.mem_map]
  constructor
  · rintro ⟨l, ⟨m, hm, rfl⟩, hn⟩
    exact ⟨m, hm, hn⟩
  · rintro ⟨m, hm, hn⟩
    exact ⟨keysA m, ⟨m, hm, rfl⟩, hn⟩

theorem get_nodes_nodup (input_maps : List AMap) :
    (get_nodes input_maps).Nodup := List.nodup_dedup _

/-- C3: the result of `MaxJunction` has as keys exactly the union of the
input key sets, and each key's value is attained by some input map that
contains the key and bounds every value the containing maps give it (it is
their arithmetic maximum). -/
theorem maxJunction_correct (input_maps : List AMap)
    (hpos : input_maps ≠ []) :
    (∀ n : Node, n ∈ keysA (MaxJunction.call input_maps) ↔
      ∃ m ∈ input_maps, n ∈ keysA m) ∧
    (∀ (n : Node) (v : ℚ),
      lookupA (MaxJunction.call input_maps) n = some v →
        (∃ m ∈ input_maps, lookupA m n = some v) ∧
        ∀ m ∈ input_maps, ∀ w : ℚ, lookupA m n = some w → w ≤ v) := by
  have hlk : ∀ n : Node, lookupA (MaxJunction.call input_maps) n =
      if n ∈ get_nodes input_maps then maxOver input_maps n else none := by
    intro n
    exact lookupA_filterMap _ _ (get_nodes_nodup input_maps) n
  constructor
  · intro n
    rw [← lookupA_isSome_iff_mem_keys, hlk n]
    by_cases hn : n ∈ get_nodes input_maps
    · rw [if_pos hn]
      constructor
      · intro _
        exact (get_nodes_mem input_maps n).1 hn
      · intro _
        rw [maxOver_eq_listMax, Option.isSome_iff_ne_none]
        intro hnone
        rw [listMax_none_iff] at hnone
        obtain ⟨m, hm, hkm⟩ := (get_nodes_mem input_maps n).1 hn
        have : (lookupA m n).isSome := (lookupA_isSome_iff_mem_keys m n).2 hkm
        obtain ⟨v, hv⟩ := Option.isSome_iff_exists.1 this
        have : (v : ℚ) ∈ input_maps.filterMap (fun m => lookupA m n) :=
          List.mem_filterMap.2 ⟨m, hm, hv⟩
        rw [hnone] at this
        cases this
    · rw [if_neg hn]
      simp only [Option.isSome_none, Bool.false_eq_true, false_iff]
      intro hex
      exact hn ((get_nodes_mem input_maps n).2 hex)
  · intro n v hv
    rw [hlk n] at hv
    by_cases hn : n ∈ get_nodes input_maps
    · rw [if_pos hn, maxOver_eq_listMax] at hv
      obtain ⟨hmem, hub⟩ := listMax_some_spec _ _ hv
      obtain ⟨m, hm, hlm⟩ := List.mem_filterMap.1 hmem
      refine ⟨⟨m, hm, hlm⟩, ?_⟩
      intro m' hm' w hw
      exact hub w (List.mem_filterMap.2 ⟨m', hm', hw⟩)
    · rw [if_neg hn] at hv
      cases hv

/-- Witness for C3: two concrete maps sharing the key (1,0); the key set of
the result is the union, and the value at the shared key is the maximum 3. -/
theorem maxJunction_correct_witness :
    (Node.mf ⟨1, 0⟩ ∈
        keysA (MaxJunction.call
          [[(Node.mf ⟨0, 0⟩, 1), (Node.mf ⟨1, 0⟩, 3)], [(Node.mf ⟨1, 0⟩, 2)]]) ↔
      ∃ m ∈ [[(Node.mf ⟨0, 0⟩, (1 : ℚ)), (Node.mf ⟨1, 0⟩, 3)],
          [(Node.mf ⟨1, 0⟩, 2)]], Node.mf ⟨1, 0⟩ ∈ keysA m) ∧
    lookupA
        (MaxJunction.call
          [[(Node.mf ⟨0, 0⟩, 1), (Node.mf ⟨1, 0⟩, 3)], [(Node.mf ⟨1, 0⟩, 2)]])
        (Node.mf ⟨1, 0⟩) = some 3 :=
  ⟨(maxJunction_correct
      [[(Node.mf ⟨0, 0⟩, 1), (Node.mf ⟨1, 0⟩, 3)], [(Node.mf ⟨1, 0⟩, 2)]]
      (by simp)).1 (Node.mf ⟨1, 0⟩), by decide⟩

/-! ### BottomUp (`common.py` lines 73-125) -/

/-- Python's float power for the bases arising here: `0.0 ** y` with
`y < 0` raises `ZeroDivisionError`; any other base yields the principal
complex power (a negative float base with a fractional exponent produces a
complex number in Python 3, not an error). -/
noncomputable def pypow (x y : ℝ) : Except PyErr ℂ :=
  if x = 0 ∧ y < 0 then .error .zeroDiv else .ok ((x : ℂ) ^ (y : ℂ))

/-- Python's division: raises `ZeroDivisionError` on a zero divisor. -/
noncomputable def pydiv (x y : ℂ) : Except PyErr ℂ :=
  if y = 0 then .error .zeroDiv else .ok (x / y)

/-- Body of the `for f in self.chunk.microfeatures` loop of
`BottomUp.__call__`: update the per-dimension running maximum with the
input activation of `f`; microfeatures absent from the input are skipped by
the nested `except KeyError: continue`. -/
def buStep (input_map : AMap) (d2a : List (Nat × ℚ)) (f : Microfeature) :
    List (Nat × ℚ) :=
  match lookupA d2a f.dim, lookupA input_map (Node.mf f) with
  | some a, some v => if a < v then dinsert d2a f.dim v else d2a
  | some _, none => d2a
  | none, some v => dinsert d2a f.dim v
  | none, none => d2a

/-- The per-dimension maxima dict built by `BottomUp.__call__`. -/
def dim2activation (mfs : List Microfeature) (input_map : AMap) :
    List (Nat × ℚ) :=
  mfs.foldl (buStep input_map) []

/-- The `for dim in dim2activation` accumulation of `BottomUp.__call__`:
`strength += dim2weight[dim] * dim2activation[dim]`, raising `KeyError`
when a dimension is missing from the weight mapping. -/
def sumStrength (d2w : List (Nat × ℚ)) :
    List (Nat × ℚ) → ℚ → Except PyErr ℚ
  | [], strength => .ok strength
  | (d, a) :: rest, strength =>
      match lookupA d2w d with
      | some w => sumStrength d2w rest (strength + w * a)
      | none => .error .keyError

/-- Source expression `sum(self.chunk.dim2weight.values())`. -/
def weightSum (c : Chunk) : ℚ := (c.dim2weight.map Prod.snd).sum

/-- Source `BottomUp.__call__`: numerator accumulation, then
`strength /= sum(dim2weight.values()) ** 1.1`, returned as the single-entry
map on the bound chunk. -/
noncomputable def BottomUp.call (c : Chunk) (input_map : AMap) :
    Except PyErr (List (Node × ℂ)) :=
  match sumStrength c.dim2weight (dim2activation c.microfeatures input_map) 0 with
  | .error e => .error e
  | .ok strength =>
      match pypow ((weightSum c : ℚ) : ℝ) (1.1 : ℝ) with
      | .error e => .error e
      | .ok denom =>
          match pydiv ((strength : ℚ) : ℂ) denom with
          | .error e => .error e
          | .ok s => .ok [(Node.chunk c, s)]

/-- The activations available in the input for a given dimension of the
chunk (the spec's set the per-dimension maximum ranges over). -/
def presentVals (mfs : List Microfeature) (input_map : AMap) (d : Nat) :
    List ℚ :=
  mfs.filterMap
    (fun f => if f.dim = d then lookupA input_map (Node.mf f) else none)

/-- The spec's `D`: dimensions of the chunk with at least one microfeature
present in the input. -/
def presentDims (mfs : List Microfeature) (input_map : AMap) : List Nat :=
  ((mfs.filter (fun f => (lookupA input_map (Node.mf f)).isSome)).map
    Microfeature.dim).dedup

/-- The spec's per-dimension maximum activation. -/
def maxActivation (mfs : List Microfeature) (input_map : AMap) (d : Nat) :
    ℚ :=
  (listMax (presentVals mfs input_map d)).getD 0

/-- The spec's numerator: `Σ_{d ∈ D} weight(d) * maxActivation(d)`. -/
def strengthNum (c : Chunk) (input_map : AMap) : ℚ :=
  ((presentDims c.microfeatures input_map).map
    (fun d => c.weight d * maxActivation c.microfeatures input_map d)).sum

theorem buStep_lookup_eq (input_map : AMap) (d2a : List (Nat × ℚ))
    (f : Microfeature) :
    lookupA (buStep input_map d2a f) f.dim =
      omax (lookupA d2a f.dim) (lookupA input_map (Node.mf f)) := by
  unfold buStep
  cases hacc : lookupA d2a f.dim with
  | none =>
      cases hin : lookupA input_map (Node.mf f) with
      | none => simp [hacc, omax]
      | some v => simp [lookupA_dinsert_self, omax]
  | some a =>
      cases hin : lookupA input_map (Node.mf f) with
      | none => simp [hacc, omax]
      | some v =>
          show lookupA (if a < v then dinsert d2a f.dim v else d2a) f.dim =
            omax (some a) (some v)
          rcases le_or_lt v a with hle | hlt
          · rw [if_neg (not_lt.2 hle), hacc]
            simp [omax, max_eq_left hle]
          · rw [if_pos hlt, lookupA_dinsert_self]
            simp [omax, max_eq_right hlt.le]

theorem buStep_lookup_ne (input_map : AMap) (d2a : List (Nat × ℚ))
    (f : Microfeature) (d : Nat) (hd : d ≠ f.dim) :
    lookupA (buStep input_map d2a f) d = lookupA d2a d := by
  unfold buStep
  cases hacc : lookupA d2a f.dim with
  | none =>
      cases hin : lookupA input_map (Node.mf f) with
      | none => rfl
      | some v => exact lookupA_dinsert_ne d2a f.dim d v hd
  | some a =>
      cases hin : lookupA input_map (Node.mf f) with
      | none => rfl
      | some v =>
          show lookupA (if a < v then dinsert d2a f.dim v else d2a) d =
            lookupA d2a d
          by_cases hav : a < v
          · rw [if_pos hav]
            exact lookupA_dinsert_ne d2a f.dim d v hd
          · rw [if_neg hav]

theorem dim2activation_foldl_lookup (input_map : AMap) (d : Nat)
    (mfs : List Microfeature) (acc : List (Nat × ℚ)) :
    lookupA (mfs.foldl (buStep input_map) acc) d =
      (presentVals mfs input_map d).foldl
        (fun o v => omax o (some v)) (lookupA acc d) := by
  induction mfs generalizing acc with
  | nil => simp [presentVals]
  | cons f rest ih =>
      simp only [List.foldl_cons]
      rw [ih (buStep input_map acc f)]
      by_cases hd : f.dim = d
      · subst hd
        cases hin : lookupA input_map (Node.mf f) with
        | none =>
            have hpv : presentVals (f :: rest) input_map f.dim =
                presentVals rest input_map f.dim := by
              simp [presentVals, List.filterMap_cons, hin]
            rw [hpv, buStep_lookup_eq, hin, omax_none_right]
        | some v =>
            have hpv : presentVals (f :: rest) input_map f.dim =
                v :: presentVals rest input_map f.dim := by
              simp [presentVals, List.filterMap_cons, hin]
            rw [hpv, buStep_lookup_eq, hin]
            simp [List.foldl_cons]
      · have hdne : d ≠ f.dim := fun h2 => hd (Eq.symm h2)
        have hpv : presentVals (f :: rest) input_map d =
            presentVals rest input_map d := by
          have hif : (if f.dim = d then lookupA input_map (Node.mf f)
              else none) = none := if_neg hd
          simp [presentVals, List.filterMap_cons, hif]
        rw [hpv, buStep_lookup_ne input_map acc f d hdne]

/-- The per-dimension running maximum computed by `BottomUp.__call__`
agrees with the spec's maximum over the present activations. -/
theorem dim2activation_lookup (mfs : List Microfeature) (input_map : AMap)
    (d : Nat) :
    lookupA (dim2activation mfs input_map) d =
      listMax (presentVals mfs input_map d) := by
  unfold dim2activation listMax
  rw [dim2activation_foldl_lookup]
  rfl

theorem keysA_dinsert {α β : Type} [DecidableEq α]
    (l : List (α × β)) (a : α) (b : β) :
    keysA (dinsert l a b) =
      if a ∈ keysA l then keysA l else keysA l ++ [a] := by
  induction l with
  | nil => simp [dinsert, keysA]
  | cons p rest ih =>
      obtain ⟨k, v⟩ := p
      by_cases hk : k = a
      · subst hk
        simp [dinsert, keysA]
      · have hak : ¬ (a = k) := fun h2 => hk (Eq.symm h2)
        simp only [dinsert, if_neg hk, keysA, List.map_cons] at ih ⊢
        rw [ih]
        by_cases hmem : a ∈ List.map Prod.fst rest
        · simp [List.mem_cons, hmem, hak]
        · simp [List.mem_cons, hmem, hak]

theorem keysA_dinsert_nodup {α β : Type} [DecidableEq α]
    (l : List (α × β)) (a : α) (b : β) (h : (keysA l).Nodup) :
    (keysA (dinsert l a b)).Nodup := by
  rw [keysA_dinsert]
  by_cases hmem : a ∈ keysA l
  · rw [if_pos hmem]; exact h
  · rw [if_neg hmem]
    simpa [List.nodup_append] using ⟨h, hmem⟩

theorem buStep_keys_nodup (input_map : AMap) (d2a : List (Nat × ℚ))
    (f : Microfeature) (h : (keysA d2a).Nodup) :
    (keysA (buStep input_map d2a f)).Nodup := by
  unfold buStep
  cases lookupA d2a f.dim with
  | none =>
      cases lookupA input_map (Node.mf f) with
      | none => exact h
      | some v => exact keysA_dinsert_nodup d2a f.dim v h
  | some a =>
      cases lookupA input_map (Node.mf f) with
      | none => exact h
      | some v =>
          show (keysA (if a < v then dinsert d2a f.dim v else d2a)).Nodup
          by_cases hav : a < v
          · rw [if_pos hav]
            exact keysA_dinsert_nodup d2a f.dim v h
          · rw [if_neg hav]
            exact h

theorem dim2activation_keys_nodup (mfs : List Microfeature)
    (input_map : AMap) :
    (keysA (dim2activation mfs input_map)).Nodup := by
  unfold dim2activation
  have : ∀ acc : List (Nat × ℚ), (keysA acc).Nodup →
      (keysA (mfs.foldl (buStep input_map) acc)).Nodup := by
    induction mfs with
    | nil => intro acc h; exact h
    | cons f rest ih =>
        intro acc h
        exact ih _ (buStep_keys_nodup input_map acc f h)
  exact this [] (by simp [keysA])

theorem lookupA_eq_some_iff_mem {α β : Type} [DecidableEq α]
    (l : List (α × β)) (hnd : (keysA l).Nodup) (a : α) (b : β) :
    lookupA l a = some b ↔ (a, b) ∈ l := by
  induction l with
  | nil => simp [lookupA]
  | cons p rest ih =>
      obtain ⟨k, v⟩ := p
      simp only [keysA, List.map_cons, List.nodup_cons] at hnd
      by_cases hk : k = a
      · subst hk
        simp only [lookupA, List.mem_cons]
        rw [if_pos trivial]
        constructor
        · intro h
          exact Or.inl (by rw [Option.some.inj h])
        · rintro (h | h)
          · injection h with h1 h2
            rw [h2]
          · exact absurd
              (by simpa [keysA] using List.mem_map_of_mem Prod.fst h) hnd.1
      · have hka : ¬ (k = a) := hk
        simp only [lookupA, if_neg hka, List.mem_cons]
        rw [ih (by simpa [keysA] using hnd.2)]
        constructor
        · exact Or.inr
        · rintro (h | h)
          · exfalso
            exact hka (congrArg Prod.fst h).symm
          · exact h

theorem presentVals_ne_nil_iff (mfs : List Microfeature) (input_map : AMap)
    (d : Nat) :
    presentVals mfs input_map d ≠ [] ↔ d ∈ presentDims mfs input_map := by
  unfold presentVals presentDims
  constructor
  · intro h
    obtain ⟨v, hv⟩ := List.exists_mem_of_ne_nil _ h
    obtain ⟨f, hf, hfv⟩ := List.mem_filterMap.1 hv
    by_cases hd : f.dim = d
    · rw [List.mem_dedup]
      refine List.mem_map.2 ⟨f, List.mem_filter.2 ⟨hf, ?_⟩, hd⟩
      rw [if_pos hd] at hfv
      simp [hfv]
    · rw [if_neg hd] at hfv
      cases hfv
  · intro h hnil
    rw [List.mem_dedup] at h
    obtain ⟨f, hf, hfd⟩ := List.mem_map.1 h
    obtain ⟨hfm, hfs⟩ := List.mem_filter.1 hf
    obtain ⟨v, hv⟩ := Option.isSome_iff_exists.1 (by simpa using hfs)
    have : v ∈ mfs.filterMap
        (fun f => if f.dim = d then lookupA input_map (Node.mf f) else none) :=
      List.mem_filterMap.2 ⟨f, hfm, by rw [if_pos hfd, hv]⟩
    rw [hnil] at this
    cases this

theorem listMax_eq_some_iff_presentDims (mfs : List Microfeature)
    (input_map : AMap) (d : Nat) (a : ℚ) :
    listMax (presentVals mfs input_map d) = some a ↔
      d ∈ presentDims mfs input_map ∧ a = maxActivation mfs input_map d := by
  constructor
  · intro h
    have hne : presentVals mfs input_map d ≠ [] := by
      intro hnil
      rw [(listMax_none_iff _).2 hnil] at h
      cases h
    refine ⟨(presentVals_ne_nil_iff mfs input_map d).1 hne, ?_⟩
    rw [maxActivation, h]
    rfl
  · rintro ⟨hd, rfl⟩
    have hne : presentVals mfs input_map d ≠ [] :=
      (presentVals_ne_nil_iff mfs input_map d).2 hd
    cases h : listMax (presentVals mfs input_map d) with
    | none => exact absurd ((listMax_none_iff _).1 h) hne
    | some x =>
        rw [maxActivation, h]
        rfl

/-- The dict built by the `BottomUp` loop is, up to ordering, exactly the
spec's pairing of each present dimension with its maximum activation. -/
theorem dim2activation_perm (mfs : List Microfeature) (input_map : AMap) :
    (dim2activation mfs input_map).Perm
      ((presentDims mfs input_map).map
        (fun d => (d, maxActivation mfs input_map d))) := by
  have hnd1 : (dim2activation mfs input_map).Nodup :=
    (dim2activation_keys_nodup mfs input_map).of_map Prod.fst
  have hnd2 : ((presentDims mfs input_map).map
      (fun d => (d, maxActivation mfs input_map d))).Nodup := by
    refine (List.nodup_dedup _).map ?_
    intro x y hxy
    exact congrArg Prod.fst hxy
  refine (List.perm_ext_iff_of_nodup hnd1 hnd2).2 ?_
  rintro ⟨d, a⟩
  rw [← lookupA_eq_some_iff_mem _ (dim2activation_keys_nodup mfs input_map),
    dim2activation_lookup, listMax_eq_some_iff_presentDims]
  constructor
  · rintro ⟨hd, rfl⟩
    exact List.mem_map.2 ⟨d, hd, rfl⟩
  · intro h
    obtain ⟨d2, hd2, heq⟩ := List.mem_map.1 h
    injection heq with h1 h2
    subst h1
    exact ⟨hd2, h2.symm⟩

theorem sumStrength_eq (d2w : List (Nat × ℚ)) (l : List (Nat × ℚ)) (z : ℚ)
    (hcov : ∀ p ∈ l, (lookupA d2w p.1).isSome) :
    sumStrength d2w l z =
      .ok (z + (l.map (fun p => (lookupA d2w p.1).getD 0 * p.2)).sum) := by
  induction l generalizing z with
  | nil => simp [sumStrength]
  | cons p rest ih =>
      obtain ⟨d, a⟩ := p
      obtain ⟨w, hw⟩ := Option.isSome_iff_exists.1 (hcov (d, a) (by simp))
      simp only [sumStrength, hw]
      rw [ih (z + w * a) (fun q hq => hcov q (by simp [hq]))]
      simp only [List.map_cons, List.sum_cons, hw, Option.getD_some]
      rw [add_assoc]

theorem mem_presentDims_isSome (mfs : List Microfeature) (input_map : AMap)
    (d : Nat) (hd : d ∈ presentDims mfs input_map) :
    ∃ f ∈ mfs, f.dim = d := by
  rw [presentDims, List.mem_dedup] at hd
  obtain ⟨f, hf, hfd⟩ := List.mem_map.1 hd
  exact ⟨f, (List.mem_filter.1 hf).1, hfd⟩

/-- The numerator loop of `BottomUp.__call__` computes the spec's
`Σ_{d ∈ D} weight(d) * maxActivation(d)` when every microfeature dimension
has a weight entry. -/
theorem sumStrength_dim2activation (c : Chunk) (input_map : AMap)
    (hcov : ∀ f ∈ c.microfeatures, (lookupA c.dim2weight f.dim).isSome) :
    sumStrength c.dim2weight
        (dim2activation c.microfeatures input_map) 0 =
      .ok (strengthNum c input_map) := by
  have hcov2 : ∀ p ∈ dim2activation c.microfeatures input_map,
      (lookupA c.dim2weight p.1).isSome := by
    rintro ⟨d, a⟩ hp
    have hlk := (lookupA_eq_some_iff_mem _
      (dim2activation_keys_nodup c.microfeatures input_map) d a).2 hp
    rw [dim2activation_lookup, listMax_eq_some_iff_presentDims] at hlk
    obtain ⟨f, hf, hfd⟩ :=
      mem_presentDims_isSome c.microfeatures input_map d hlk.1
    rw [← hfd]
    exact hcov f hf
  rw [sumStrength_eq c.dim2weight _ 0 hcov2]
  rw [zero_add]
  have hperm := (dim2activation_perm c.microfeatures input_map).map
    (fun p : Nat × ℚ => (lookupA c.dim2weight p.1).getD 0 * p.2)
  rw [hperm.sum_eq]
  rw [List.map_map]
  rfl

theorem pypow_pos_exp (x : ℝ) :
    pypow x (1.1 : ℝ) = .ok ((x : ℂ) ^ (((1.1 : ℝ)) : ℂ)) := by
  unfold pypow
  rw [if_neg]
  rintro ⟨h0, hneg⟩
  norm_num at hneg

/-- Behaviour of `BottomUp.__call__` on a chunk whose weights sum to a nonzero value:
the call returns the single-entry map binding the chunk to the spec's
numerator divided by the weight sum raised to 1.1. -/
theorem bottomUp_call_eq (c : Chunk) (input_map : AMap)
    (hcov : ∀ f ∈ c.microfeatures, (lookupA c.dim2weight f.dim).isSome)
    (hw : weightSum c ≠ 0) :
    BottomUp.call c input_map =
      .ok [(Node.chunk c,
        ((strengthNum c input_map : ℚ) : ℂ) /
          (((weightSum c : ℚ) : ℝ) : ℂ) ^ (((1.1 : ℝ)) : ℂ))] := by
  unfold BottomUp.call
  rw [sumStrength_dim2activation c input_map hcov, pypow_pos_exp]
  have hd : (((weightSum c : ℚ) : ℝ) : ℂ) ^ (((1.1 : ℝ)) : ℂ) ≠ 0 := by
    rw [Ne, Complex.cpow_eq_zero_iff]
    rintro ⟨h0, h1⟩
    rw [Complex.ofReal_eq_zero, Rat.cast_eq_zero] at h0
    exact hw h0
  simp only [pydiv, if_neg hd]

/-- Behaviour of `BottomUp.__call__` on a chunk whose weights sum to 0 (in particular a
chunk with an empty weight mapping): `0 ** 1.1 = 0` and the final division
raises `ZeroDivisionError`, whatever the input. -/
theorem bottomUp_call_zero (c : Chunk) (input_map : AMap)
    (hcov : ∀ f ∈ c.microfeatures, (lookupA c.dim2weight f.dim).isSome)
    (hw : weightSum c = 0) :
    BottomUp.call c input_map = .error .zeroDiv := by
  unfold BottomUp.call
  rw [sumStrength_dim2activation c input_map hcov, pypow_pos_exp]
  have hzero : (((weightSum c : ℚ) : ℝ) : ℂ) ^ (((1.1 : ℝ)) : ℂ) = 0 := by
    rw [hw]
    rw [show (((0 : ℚ) : ℝ) : ℂ) = 0 by norm_num]
    exact Complex.zero_cpow (by norm_num)
  rw [hzero]
  simp [pydiv]

theorem listMax_perm (l l2 : List ℚ) (h : l.Perm l2) :
    listMax l = listMax l2 := by
  cases h1 : listMax l with
  | none =>
      have hl : l = [] := (listMax_none_iff l).1 h1
      subst hl
      have hl2 : l2 = [] := h.symm.eq_nil
      rw [hl2]
      exact ((listMax_none_iff []).2 rfl).symm
  | some v =>
      obtain ⟨hmem, hub⟩ := listMax_some_spec l v h1
      cases h2 : listMax l2 with
      | none =>
          have hnil : l2 = [] := (listMax_none_iff l2).1 h2
          subst hnil
          exact absurd (h.mem_iff.1 hmem) (by simp)
      | some w =>
          obtain ⟨hmem2, hub2⟩ := listMax_some_spec l2 w h2
          have h3 : v ≤ w := hub2 v (h.mem_iff.1 hmem)
          have h4 : w ≤ v := hub w (h.mem_iff.2 hmem2)
          rw [le_antisymm h3 h4]

theorem maxActivation_perm (mfs2 mfs : List Microfeature) (input_map : AMap)
    (h : mfs2.Perm mfs) (d : Nat) :
    maxActivation mfs2 input_map d = maxActivation mfs input_map d := by
  unfold maxActivation presentVals
  rw [listMax_perm _ _ (h.filterMap _)]

theorem presentDims_perm (mfs2 mfs : List Microfeature) (input_map : AMap)
    (h : mfs2.Perm mfs) :
    (presentDims mfs2 input_map).Perm (presentDims mfs input_map) :=
  ((h.filter _).map _).dedup

theorem strengthNum_perm (mfs2 : List Microfeature) (c : Chunk)
    (input_map : AMap) (h : mfs2.Perm c.microfeatures) :
    strengthNum ⟨mfs2, c.dim2weight⟩ input_map = strengthNum c input_map := by
  unfold strengthNum
  have hfun : (fun d => Chunk.weight ⟨mfs2, c.dim2weight⟩ d *
      maxActivation mfs2 input_map d) =
      fun d => c.weight d * maxActivation c.microfeatures input_map d := by
    funext d
    rw [maxActivation_perm mfs2 c.microfeatures input_map h d]
    rfl
  show ((presentDims mfs2 input_map).map
      (fun d => Chunk.weight ⟨mfs2, c.dim2weight⟩ d *
        maxActivation mfs2 input_map d)).sum = _
  rw [hfun, ((presentDims_perm mfs2 c.microfeatures input_map h).map _).sum_eq]

/-- C2 counterexample: a chunk with an empty weight mapping (its weight sum
is 0) makes `BottomUp` raise `ZeroDivisionError` on any input instead of
returning the single-entry map `{chunk: 0}` the claim predicts for an empty
set of present dimensions. -/
theorem bottomUp_claim_counterexample :
    BottomUp.call ⟨[], []⟩ [] = .error .zeroDiv ∧
      BottomUp.call ⟨[], []⟩ [] ≠ .ok [(Node.chunk ⟨[], []⟩, 0)] := by
  have h := bottomUp_call_zero ⟨[], []⟩ [] (by simp) rfl
  refine ⟨h, ?_⟩
  rw [h]
  simp

/-- C2 amended: for a chunk whose microfeature dimensions are all covered by
the weight mapping and whose weights have a nonzero sum, `BottomUp` returns
the single-entry map binding the chunk to `Σ_{d ∈ D} weight(d) *
maxActivation(d)` divided by the weight sum (over all the chunk's
dimensions) raised to 1.1, where `D` are the dimensions with at least one
present microfeature (absent microfeatures are skipped, not zeroed); when
`D` is empty the numerator is 0. -/
theorem bottomUp_strength_correct (c : Chunk) (input_map : AMap)
    (hcov : ∀ f ∈ c.microfeatures, (lookupA c.dim2weight f.dim).isSome)
    (hw : weightSum c ≠ 0) :
    BottomUp.call c input_map =
      .ok [(Node.chunk c,
        ((strengthNum c input_map : ℚ) : ℂ) /
          (((weightSum c : ℚ) : ℝ) : ℂ) ^ (((1.1 : ℝ)) : ℂ))] ∧
    (presentDims c.microfeatures input_map = [] →
      strengthNum c input_map = 0) :=
  ⟨bottomUp_call_eq c input_map hcov hw,
   fun h => by simp [strengthNum, h]⟩

/-- Witness for C2: the three-microfeature chunk with unit weights, with
only (Color, Black) active at strength 1, yields strength `1 / 2 ** 1.1`. -/
theorem bottomUp_strength_correct_witness :
    BottomUp.call ⟨[⟨0, 0⟩, ⟨0, 1⟩, ⟨1, 2⟩], [(0, 1), (1, 1)]⟩
        [(Node.mf ⟨0, 0⟩, 1)] =
      .ok [(Node.chunk ⟨[⟨0, 0⟩, ⟨0, 1⟩, ⟨1, 2⟩], [(0, 1), (1, 1)]⟩,
        ((1 : ℚ) : ℂ) / (((2 : ℚ) : ℝ) : ℂ) ^ (((1.1 : ℝ)) : ℂ))] := by
  have h := (bottomUp_strength_correct
      ⟨[⟨0, 0⟩, ⟨0, 1⟩, ⟨1, 2⟩], [(0, 1), (1, 1)]⟩ [(Node.mf ⟨0, 0⟩, 1)]
      (by decide) (by norm_num [weightSum])).1
  rw [h]
  have hnum : strengthNum ⟨[⟨0, 0⟩, ⟨0, 1⟩, ⟨1, 2⟩], [(0, 1), (1, 1)]⟩
      [(Node.mf ⟨0, 0⟩, 1)] = 1 := by
    norm_num [strengthNum, presentDims, presentVals, maxActivation, listMax,
      omax, Chunk.weight, lookupA, List.filter, List.dedup, List.filterMap]
  have hws : weightSum ⟨[⟨0, 0⟩, ⟨0, 1⟩, ⟨1, 2⟩], [(0, 1), (1, 1)]⟩ = 2 := by
    norm_num [weightSum]
  rw [hnum, hws]

/-- C10: provided the chunk invariant holds (every microfeature dimension
has a weight entry), the only partial operation in `BottomUp` is the final
division: a nonzero weight sum gives a normal single-entry return on every
input, and an empty weight mapping or a zero weight sum raises
`ZeroDivisionError` on every input, including the empty one. -/
theorem bottomUp_partiality_correct (c : Chunk)
    (hcov : ∀ f ∈ c.microfeatures, (lookupA c.dim2weight f.dim).isSome) :
    (weightSum c ≠ 0 → ∀ input_map : AMap, ∃ z : ℂ,
      BottomUp.call c input_map = .ok [(Node.chunk c, z)]) ∧
    (weightSum c = 0 → ∀ input_map : AMap,
      BottomUp.call c input_map = .error .zeroDiv) :=
  ⟨fun hw input_map => ⟨_, bottomUp_call_eq c input_map hcov hw⟩,
   fun hw input_map => bottomUp_call_zero c input_map hcov hw⟩

/-- Witness for C10: a chunk with weight sum 1 returns normally on the empty
input; a chunk with an empty weight mapping raises `ZeroDivisionError`. -/
theorem bottomUp_partiality_correct_witness :
    (∃ z : ℂ, BottomUp.call ⟨[], [(0, 1)]⟩ [] =
      .ok [(Node.chunk ⟨[], [(0, 1)]⟩, z)]) ∧
    BottomUp.call ⟨[], []⟩ [(Node.mf ⟨0, 0⟩, 1)] = .error .zeroDiv :=
  ⟨(bottomUp_partiality_correct ⟨[], [(0, 1)]⟩ (by simp)).1
      (by norm_num [weightSum]) [],
   (bottomUp_partiality_correct ⟨[], []⟩ (by simp)).2 rfl
      [(Node.mf ⟨0, 0⟩, 1)]⟩

/-- C8 counterexample: chunk with two dimensions of equal weight 2, both
fully present with maximal activations 1 and 1; the code yields
`(2*1 + 2*1) / 4 ** 1.1`, not the claimed `(1 + 1) / 4 ** 1.1` (the claim's
formula drops the weight factor in the numerator). -/
theorem bottomUp_two_dim_counterexample :
    BottomUp.call ⟨[⟨0, 0⟩, ⟨1, 0⟩], [(0, 2), (1, 2)]⟩
        [(Node.mf ⟨0, 0⟩, 1), (Node.mf ⟨1, 0⟩, 1)] ≠
      .ok [(Node.chunk ⟨[⟨0, 0⟩, ⟨1, 0⟩], [(0, 2), (1, 2)]⟩,
        (((1 : ℚ) + 1 : ℚ) : ℂ) /
          ((((2 : ℚ) * 2 : ℚ) : ℝ) : ℂ) ^ (((1.1 : ℝ)) : ℂ))] := by
  have h := bottomUp_call_eq ⟨[⟨0, 0⟩, ⟨1, 0⟩], [(0, 2), (1, 2)]⟩
    [(Node.mf ⟨0, 0⟩, 1), (Node.mf ⟨1, 0⟩, 1)] (by decide)
    (by norm_num [weightSum])
  have hnum : strengthNum ⟨[⟨0, 0⟩, ⟨1, 0⟩], [(0, 2), (1, 2)]⟩
      [(Node.mf ⟨0, 0⟩, 1), (Node.mf ⟨1, 0⟩, 1)] = 4 := by
    norm_num [strengthNum, presentDims, presentVals, maxActivation, listMax,
      omax, Chunk.weight, lookupA, List.filter, List.dedup, List.filterMap]
  have hws : weightSum ⟨[⟨0, 0⟩, ⟨1, 0⟩], [(0, 2), (1, 2)]⟩ = 4 := by
    norm_num [weightSum]
  rw [hnum, hws] at h
  rw [h]
  intro heq
  simp only [Except.ok.injEq, List.cons.injEq, Prod.mk.injEq, and_true,
    true_and] at heq
  have hX : ((((4 : ℚ)) : ℝ) : ℂ) ^ (((1.1 : ℝ)) : ℂ) ≠ 0 := by
    rw [Ne, Complex.cpow_eq_zero_iff]
    rintro ⟨h0, h1⟩
    norm_num at h0
  have h42 : (((2 : ℚ) * 2 : ℚ) : ℚ) = (4 : ℚ) := by norm_num
  rw [h42] at heq
  rw [div_left_inj' hX] at heq
  norm_num at heq

/-- C8 amended: BottomUp strength does not depend on the order the
microfeatures (hence dimensions) are processed in, and a chunk with exactly
two dimensions of equal nonzero weight `w`, both present with maximal
activations `a` and `b`, yields strength `w*(a+b) / (2*w) ** 1.1` (the
numerator carries the weight factor). -/
theorem bottomUp_two_dim_correct :
    (∀ (c : Chunk) (input_map : AMap) (mfs2 : List Microfeature),
      mfs2.Perm c.microfeatures →
      (∀ f ∈ c.microfeatures, (lookupA c.dim2weight f.dim).isSome) →
      weightSum c ≠ 0 →
      ∃ z : ℂ,
        BottomUp.call ⟨mfs2, c.dim2weight⟩ input_map =
          .ok [(Node.chunk ⟨mfs2, c.dim2weight⟩, z)] ∧
        BottomUp.call c input_map = .ok [(Node.chunk c, z)]) ∧
    (∀ (c : Chunk) (input_map : AMap) (d1 d2 : Nat) (w a b : ℚ),
      c.dim2weight = [(d1, w), (d2, w)] → d1 ≠ d2 → w ≠ 0 →
      (∀ f ∈ c.microfeatures, f.dim = d1 ∨ f.dim = d2) →
      listMax (presentVals c.microfeatures input_map d1) = some a →
      listMax (presentVals c.microfeatures input_map d2) = some b →
      BottomUp.call c input_map =
        .ok [(Node.chunk c,
          ((w * (a + b) : ℚ) : ℂ) /
            (((2 * w : ℚ) : ℝ) : ℂ) ^ (((1.1 : ℝ)) : ℂ))]) := by
  constructor
  · intro c input_map mfs2 hp hcov hw
    have hcov2 : ∀ f ∈ mfs2, (lookupA c.dim2weight f.dim).isSome :=
      fun f hf => hcov f (hp.mem_iff.1 hf)
    refine ⟨((strengthNum c input_map : ℚ) : ℂ) /
        (((weightSum c : ℚ) : ℝ) : ℂ) ^ (((1.1 : ℝ)) : ℂ),
      ?_, bottomUp_call_eq c input_map hcov hw⟩
    have h2 := bottomUp_call_eq ⟨mfs2, c.dim2weight⟩ input_map hcov2 hw
    rw [h2, strengthNum_perm mfs2 c input_map hp]
    rfl
  · intro c input_map d1 d2 w a b hd2w hne12 hwne hdim ha hb
    have hcov : ∀ f ∈ c.microfeatures, (lookupA c.dim2weight f.dim).isSome := by
      intro f hf
      rw [hd2w]
      rcases hdim f hf with h | h <;> rw [h] <;> simp [lookupA, hne12]
    have hws : weightSum c = 2 * w := by
      rw [weightSum, hd2w]
      simp only [List.map_cons, List.map_nil, List.sum_cons, List.sum_nil]
      ring
    have hw0 : weightSum c ≠ 0 := by
      rw [hws]
      exact mul_ne_zero two_ne_zero hwne
    have hd1mem : d1 ∈ presentDims c.microfeatures input_map :=
      ((listMax_eq_some_iff_presentDims _ _ _ _).1 ha).1
    have hd2mem : d2 ∈ presentDims c.microfeatures input_map :=
      ((listMax_eq_some_iff_presentDims _ _ _ _).1 hb).1
    have hpermD : (presentDims c.microfeatures input_map).Perm [d1, d2] := by
      refine (List.perm_ext_iff_of_nodup ?_ (by simp [hne12])).2 ?_
      · rw [presentDims]
        exact List.nodup_dedup _
      · intro x
        constructor
        · intro hx
          obtain ⟨f, hf, hfd⟩ :=
            mem_presentDims_isSome c.microfeatures input_map x hx
          rcases hdim f hf with h | h <;> rw [← hfd, h] <;> simp
        · intro hx
          rcases List.mem_cons.1 hx with rfl | hx2
          · exact hd1mem
          · rcases List.mem_cons.1 hx2 with rfl | hx3
            · exact hd2mem
            · cases hx3
    have hwt1 : c.weight d1 = w := by
      rw [Chunk.weight, hd2w]
      simp [lookupA]
    have hwt2 : c.weight d2 = w := by
      rw [Chunk.weight, hd2w]
      simp [lookupA, hne12]
    have hma : maxActivation c.microfeatures input_map d1 = a := by
      rw [maxActivation, ha]
      rfl
    have hmb : maxActivation c.microfeatures input_map d2 = b := by
      rw [maxActivation, hb]
      rfl
    have hnum : strengthNum c input_map = w * (a + b) := by
      rw [strengthNum, (hpermD.map _).sum_eq]
      simp only [List.map_cons, List.map_nil, List.sum_cons, List.sum_nil,
        add_zero, hwt1, hwt2, hma, hmb]
      ring
    rw [bottomUp_call_eq c input_map hcov hw0, hnum, hws]

/-- Witness for C8: two unit-weight dimensions, both active at 1, with the
microfeature list reversed; both orders give strength `1*(1+1) / 2 ** 1.1`,
and the two-dimension formula evaluates there. -/
theorem bottomUp_two_dim_correct_witness :
    BottomUp.call ⟨[⟨0, 0⟩, ⟨1, 0⟩], [(0, 1), (1, 1)]⟩
        [(Node.mf ⟨0, 0⟩, 1), (Node.mf ⟨1, 0⟩, 1)] =
      .ok [(Node.chunk ⟨[⟨0, 0⟩, ⟨1, 0⟩], [(0, 1), (1, 1)]⟩,
        (((1 : ℚ) * ((1 : ℚ) + 1) : ℚ) : ℂ) /
          ((((2 : ℚ) * 1 : ℚ) : ℝ) : ℂ) ^ (((1.1 : ℝ)) : ℂ))] :=
  (bottomUp_two_dim_correct.2 ⟨[⟨0, 0⟩, ⟨1, 0⟩], [(0, 1), (1, 1)]⟩
    [(Node.mf ⟨0, 0⟩, 1), (Node.mf ⟨1, 0⟩, 1)] 0 1 1 1 1 rfl
    (by decide) (by norm_num) (by decide) (by decide) (by decide))

/-! ### BLA (`common.py` lines 254-314) -/

/-- Base-level activation record: scalar parameters and the list of
recorded timestamps. -/
structure BLA : Type where
  initial_activation : ℝ
  amplitude : ℝ
  decay_rate : ℝ
  density : ℝ
  timestamps : List ℝ

/-- Source `BLA.update`: append the current time to the record. -/
def BLA.update (b : BLA) (current_time : ℝ) : BLA :=
  { b with timestamps := b.timestamps ++ [current_time] }

/-- The list comprehension of `BLA.compute_bla`: evaluate
`(current_time - t) ** (-decay_rate)` left to right, the first raised
exception aborting the whole computation. -/
noncomputable def powTerms (decay_rate t : ℝ) :
    List ℝ → Except PyErr (List ℂ)
  | [] => .ok []
  | ti :: rest =>
      match pypow (t - ti) (-decay_rate) with
      | .error e => .error e
      | .ok z =>
          match powTerms decay_rate t rest with
          | .error e => .error e
          | .ok l => .ok (z :: l)

/-- Source `BLA.compute_bla`: `initial_activation + amplitude * sum(terms)`. -/
noncomputable def BLA.compute_bla (b : BLA) (current_time : ℝ) :
    Except PyErr ℂ :=
  match powTerms b.decay_rate current_time b.timestamps with
  | .error e => .error e
  | .ok terms =>
      .ok ((b.initial_activation : ℂ) + (b.amplitude : ℂ) * terms.sum)

theorem powTerms_of_ne (d t : ℝ) (ts : List ℝ)
    (h : ∀ ti ∈ ts, t ≠ ti) :
    powTerms d t ts =
      .ok (ts.map (fun ti => ((t - ti : ℝ) : ℂ) ^ (((-d : ℝ)) : ℂ))) := by
  induction ts with
  | nil => simp [powTerms]
  | cons ti rest ih =>
      have hne : t - ti ≠ 0 := sub_ne_zero.2 (h ti (by simp))
      have hpw : pypow (t - ti) (-d) =
          .ok (((t - ti : ℝ) : ℂ) ^ (((-d : ℝ)) : ℂ)) := by
        unfold pypow
        rw [if_neg]
        rintro ⟨h0, h1⟩
        exact hne h0
      simp [powTerms, hpw, ih (fun x hx => h x (by simp [hx]))]

theorem powTerms_of_mem (d t : ℝ) (hd : 0 < d) (ts : List ℝ)
    (h : t ∈ ts) :
    powTerms d t ts = .error .zeroDiv := by
  induction ts with
  | nil => cases h
  | cons ti rest ih =>
      by_cases hti : t = ti
      · subst hti
        have hpw : pypow (0 : ℝ) (-d) = .error .zeroDiv := by
          unfold pypow
          rw [if_pos ⟨rfl, neg_lt_zero.2 hd⟩]
        simp [powTerms, sub_self, hpw]
      · have hrest : t ∈ rest := (List.mem_cons.1 h).resolve_left hti
        cases hpw : pypow (t - ti) (-d) with
        | error e =>
            have : t - ti = 0 := by
              by_contra hne
              rw [pypow, if_neg (fun h2 => hne h2.1)] at hpw
              cases hpw
            exact absurd (sub_eq_zero.1 this) hti
        | ok z => simp [powTerms, hpw, ih hrest]

/-- C5 counterexample: with `decay_rate = 0`, querying `compute_bla` at a
recorded timestamp does not fail: `0.0 ** -0.0` is `1.0` in Python, so the
call returns `initial + amplitude * 1 = 2` normally. -/
theorem computeBla_claim_counterexample :
    BLA.compute_bla ⟨0, 2, 0, 0, [0]⟩ 0 = .ok 2 := by
  have hpw : pypow (0 : ℝ) (0 : ℝ) = .ok 1 := by
    unfold pypow
    rw [if_neg (by norm_num)]
    norm_num [Complex.cpow_zero]
  have hterms : powTerms 0 0 [0] = .ok [1] := by
    simp [powTerms, hpw]
  simp [BLA.compute_bla, hterms]
  try norm_num

/-- C5 amended: whenever the query time differs from every recorded
timestamp, `compute_bla` returns
`initial_activation + amplitude * Σ (t - ti) ** (-decay_rate)` (as a
principal complex power when a timestamp lies in the future); if the decay
rate is positive and the query time equals any recorded timestamp, the call
fails with `ZeroDivisionError`. -/
theorem computeBla_correct :
    (∀ (b : BLA) (t : ℝ), (∀ ti ∈ b.timestamps, t ≠ ti) →
      BLA.compute_bla b t =
        .ok ((b.initial_activation : ℂ) + (b.amplitude : ℂ) *
          (b.timestamps.map (fun ti =>
            ((t - ti : ℝ) : ℂ) ^ (((-b.decay_rate : ℝ)) : ℂ))).sum)) ∧
    (∀ (b : BLA) (t : ℝ), 0 < b.decay_rate → t ∈ b.timestamps →
      BLA.compute_bla b t = .error .zeroDiv) := by
  constructor
  · intro b t h
    rw [BLA.compute_bla, powTerms_of_ne b.decay_rate t b.timestamps h]
  · intro b t hd hmem
    rw [BLA.compute_bla, powTerms_of_mem b.decay_rate t hd b.timestamps hmem]

/-- Witness for C5: record ⟨0, 2, 1, 0⟩ with one timestamp 0; querying at
time 1 returns the decayed sum, querying at the recorded time 0 raises
`ZeroDivisionError`. -/
theorem computeBla_correct_witness :
    BLA.compute_bla ⟨0, 2, 1, 0, [0]⟩ 1 =
      .ok (((0 : ℝ) : ℂ) + ((2 : ℝ) : ℂ) *
        (([(0 : ℝ)]).map (fun ti =>
          (((1 : ℝ) - ti : ℝ) : ℂ) ^ (((-(1 : ℝ) : ℝ)) : ℂ))).sum) ∧
    BLA.compute_bla ⟨0, 2, 1, 0, [0]⟩ 0 = .error .zeroDiv :=
  ⟨computeBla_correct.1 ⟨0, 2, 1, 0, [0]⟩ 1 (by norm_num),
   computeBla_correct.2 ⟨0, 2, 1, 0, [0]⟩ 0 (by norm_num) (by simp)⟩

/-! ### BoltzmannSelector (`common.py` lines 209-252) -/

/-- A Boltzmann selector: the fixed candidate chunk set and the
temperature. -/
structure BoltzmannSelector : Type where
  chunks : List Chunk
  temperature : ℝ

/-- One term of the Boltzmann distribution: `exp(strength / temperature)`
for a candidate present in the input, else `exp(0 / t) = 1.0` for the
assumed zero strength of a missing candidate. -/
noncomputable def termOf (sel : BoltzmannSelector)
    (chunk2strength : List (Chunk × ℝ)) (c : Chunk) : ℝ :=
  match lookupA chunk2strength c with
  | some s => Real.exp (s / sel.temperature)
  | none => 1

/-- The terms over the candidate list. -/
noncomputable def termsList (sel : BoltzmannSelector)
    (chunk2strength : List (Chunk × ℝ)) : List ℝ :=
  sel.chunks.map (termOf sel chunk2strength)

/-- The accumulated divisor (the sum of all terms). -/
noncomputable def divisorOf (sel : BoltzmannSelector)
    (chunk2strength : List (Chunk × ℝ)) : ℝ :=
  (termsList sel chunk2strength).sum

/-- The probability list passed to the categorical draw. -/
noncomputable def probabilities (sel : BoltzmannSelector)
    (chunk2strength : List (Chunk × ℝ)) : List ℝ :=
  (termsList sel chunk2strength).map
    (fun t => t / divisorOf sel chunk2strength)

/-- Modelled from the spec: the single categorical draw of
`np.random.choice(chunk_list, p=probabilities)`, with the randomness source
exposed as one uniform sample `u` in `[0, 1)`: the drawn index is the first
whose cumulative probability interval contains `u`. -/
noncomputable def pick : List ℝ → ℝ → Nat
  | [], _ => 0
  | p :: rest, u => if u < p then 0 else pick rest (u - p) + 1

/-- Source `BoltzmannSelector.__call__`: compute terms and probabilities, draw one
chunk, return it (as the sole member of the returned set). -/
noncomputable def BoltzmannSelector.call (sel : BoltzmannSelector)
    (chunk2strength : List (Chunk × ℝ)) (u : ℝ) : Chunk :=
  sel.chunks.getD (pick (probabilities sel chunk2strength) u) ⟨[], []⟩

theorem sum_map_div (l : List ℝ) (c : ℝ) :
    (l.map (fun x => x / c)).sum = l.sum / c := by
  induction l with
  | nil => simp
  | cons x rest ih => simp [ih, add_div]

theorem termOf_pos (sel : BoltzmannSelector)
    (chunk2strength : List (Chunk × ℝ)) (c : Chunk) :
    0 < termOf sel chunk2strength c := by
  unfold termOf
  cases lookupA chunk2strength c with
  | none => exact one_pos
  | some s => exact Real.exp_pos _

theorem divisorOf_pos (sel : BoltzmannSelector)
    (chunk2strength : List (Chunk × ℝ)) (hne : sel.chunks ≠ []) :
    0 < divisorOf sel chunk2strength := by
  apply List.sum_pos
  · intro t ht
    obtain ⟨c, _, rfl⟩ := List.mem_map.1 ht
    exact termOf_pos sel chunk2strength c
  · simpa [termsList] using hne

theorem pick_eq_iff (l : List ℝ) (hl : ∀ p ∈ l, 0 < p) (u : ℝ)
    (hu : 0 ≤ u) (i : Nat) (hi : i < l.length) :
    pick l u = i ↔ (l.take i).sum ≤ u ∧ u < (l.take (i + 1)).sum := by
  induction l generalizing u i with
  | nil => cases hi
  | cons p rest ih =>
      cases i with
      | zero =>
          constructor
          · intro h
            by_cases hup : u < p
            · exact ⟨by simpa using hu, by simpa [List.take_succ_cons] using hup⟩
            · exfalso
              unfold pick at h
              rw [if_neg hup] at h
              exact Nat.succ_ne_zero _ h
          · rintro ⟨h1, h2⟩
            have hup : u < p := by simpa [List.take_succ_cons] using h2
            unfold pick
            rw [if_pos hup]
      | succ j =>
          have hlt : j < rest.length := by simpa using hi
          have hrest : ∀ q ∈ rest, 0 < q := fun q hq => hl q (by simp [hq])
          constructor
          · intro h
            unfold pick at h
            by_cases hup : u < p
            · rw [if_pos hup] at h
              cases h
            · rw [if_neg hup] at h
              have hj : pick rest (u - p) = j := Nat.succ_injective h
              have hu2 : (0 : ℝ) ≤ u - p := sub_nonneg.2 (not_lt.1 hup)
              obtain ⟨ha, hb⟩ := (ih hrest (u - p) hu2 j hlt).1 hj
              rw [List.take_succ_cons, List.sum_cons,
                List.take_succ_cons, List.sum_cons]
              constructor <;> linarith
          · rintro ⟨h1, h2⟩
            rw [List.take_succ_cons, List.sum_cons] at h1 h2
            have hnn : 0 ≤ (rest.take j).sum :=
              List.sum_nonneg
                (fun q hq => (hrest q (List.mem_of_mem_take hq)).le)
            have hup : ¬ u < p := by
              push_neg
              linarith
            unfold pick
            rw [if_neg hup]
            have := (ih hrest (u - p) (sub_nonneg.2 (not_lt.1 hup)) j hlt).2
              ⟨by linarith, by linarith⟩
            rw [this]

theorem pick_lt_length (l : List ℝ) (hl : ∀ p ∈ l, 0 < p) (u : ℝ)
    (hu : 0 ≤ u) (hsum : u < l.sum) : pick l u < l.length := by
  induction l generalizing u with
  | nil =>
      simp only [List.sum_nil] at hsum
      exact absurd hsum (not_lt.2 hu)
  | cons p rest ih =>
      unfold pick
      by_cases hup : u < p
      · rw [if_pos hup]
        simp
      · rw [if_neg hup]
        simp only [List.length_cons, Nat.add_lt_add_iff_right]
        apply ih (fun q hq => hl q (by simp [hq])) (u - p)
          (sub_nonneg.2 (not_lt.1 hup))
        rw [List.sum_cons] at hsum
        linarith

theorem probabilities_pos (sel : BoltzmannSelector)
    (chunk2strength : List (Chunk × ℝ)) (hne : sel.chunks ≠ []) :
    ∀ p ∈ probabilities sel chunk2strength, 0 < p := by
  intro p hp
  obtain ⟨t, ht, rfl⟩ := List.mem_map.1 hp
  obtain ⟨c, _, rfl⟩ := List.mem_map.1 ht
  exact div_pos (termOf_pos sel chunk2strength c)
    (divisorOf_pos sel chunk2strength hne)

theorem probabilities_sum (sel : BoltzmannSelector)
    (chunk2strength : List (Chunk × ℝ)) (hne : sel.chunks ≠ []) :
    (probabilities sel chunk2strength).sum = 1 := by
  unfold probabilities
  rw [sum_map_div]
  exact div_self (ne_of_gt (divisorOf_pos sel chunk2strength hne))

theorem probabilities_length (sel : BoltzmannSelector)
    (chunk2strength : List (Chunk × ℝ)) :
    (probabilities sel chunk2strength).length = sel.chunks.length := by
  simp [probabilities, termsList]

/-- C6: each candidate's term is `exp(strength / T)` when present in the
input and 1.0 otherwise; the probabilities (each term over the sum of all
terms) sum to 1; the draw selects index `i` exactly when the uniform sample
falls in `i`'s cumulative-probability interval (whose width is `i`'s
probability); and the returned chunk is a member of the candidate set. -/
theorem boltzmannSelector_correct (sel : BoltzmannSelector)
    (chunk2strength : List (Chunk × ℝ))
    (hne : sel.chunks ≠ []) (hT : 0 < sel.temperature) :
    (∀ (c : Chunk) (s : ℝ), lookupA chunk2strength c = some s →
      termOf sel chunk2strength c = Real.exp (s / sel.temperature)) ∧
    (∀ c : Chunk, lookupA chunk2strength c = none →
      termOf sel chunk2strength c = 1) ∧
    (probabilities sel chunk2strength).sum = 1 ∧
    (∀ i : Nat, i < sel.chunks.length →
      (probabilities sel chunk2strength).getD i 0 =
        termOf sel chunk2strength (sel.chunks.getD i ⟨[], []⟩) /
          divisorOf sel chunk2strength) ∧
    (∀ u : ℝ, 0 ≤ u → u < 1 → ∀ i : Nat, i < sel.chunks.length →
      (pick (probabilities sel chunk2strength) u = i ↔
        ((probabilities sel chunk2strength).take i).sum ≤ u ∧
          u < ((probabilities sel chunk2strength).take (i + 1)).sum)) ∧
    (∀ u : ℝ, 0 ≤ u → u < 1 →
      BoltzmannSelector.call sel chunk2strength u ∈ sel.chunks) := by
  refine ⟨?_, ?_, probabilities_sum sel chunk2strength hne, ?_, ?_, ?_⟩
  · intro c s h
    unfold termOf
    rw [h]
  · intro c h
    unfold termOf
    rw [h]
  · intro i hi
    have hi2 : i < (probabilities sel chunk2strength).length := by
      rw [probabilities_length]
      exact hi
    rw [List.getD_eq_getElem _ _ hi2, List.getD_eq_getElem _ _ hi]
    simp only [probabilities, termsList, List.map_map]
    rw [List.getElem_map]
    rfl
  · intro u hu hu1 i hi
    exact pick_eq_iff (probabilities sel chunk2strength)
      (probabilities_pos sel chunk2strength hne) u hu i
      (by rw [probabilities_length]; exact hi)
  · intro u hu hu1
    have hplt : pick (probabilities sel chunk2strength) u <
        (probabilities sel chunk2strength).length :=
      pick_lt_length _ (probabilities_pos sel chunk2strength hne) u hu
        (by rw [probabilities_sum sel chunk2strength hne]; exact hu1)
    rw [probabilities_length] at hplt
    unfold BoltzmannSelector.call
    rw [List.getD_eq_getElem _ _ hplt]
    exact List.getElem_mem _

/-- Witness for C6: one candidate chunk, temperature 1, empty input; the
probabilities sum to 1 and the draw at `u = 1/2` returns the candidate. -/
theorem boltzmannSelector_correct_witness :
    (probabilities ⟨[⟨[], []⟩], 1⟩ []).sum = 1 ∧
      BoltzmannSelector.call ⟨[⟨[], []⟩], 1⟩ [] (1/2) ∈
        [(⟨[], []⟩ : Chunk)] :=
  ⟨(boltzmannSelector_correct ⟨[⟨[], []⟩], 1⟩ [] (by simp)
      (by norm_num)).2.2.1,
   (boltzmannSelector_correct ⟨[⟨[], []⟩], 1⟩ [] (by simp)
      (by norm_num)).2.2.2.2.2 (1/2) (by norm_num) (by norm_num)⟩
